import Mathlib

/-!
# Verification of the Pixfix alpha-bleed correction engine

Shallow embedding of the two pipelines of the Pixfix repository:

* `src/main.rs` — the nearest-border-point pipeline (`convert_image` plus the
  batch orchestrator's shared result counters), embedded in namespace `Main`
  and `Batch`;
* `src/maina.rs` — the flood-averaging pipeline (`fix_alpha_bleed` and its
  helper `neighbors`), embedded in namespace `Maina`.

Raster buffers are modelled as total functions `Nat → Rgba` from the row-major
pixel index, with in-place byte writes modelled by pointwise functional update
(`updf`).  Machine integers are modelled by `Nat`/`Int`; the only place where
an 8-bit truncation can occur in the source (the `as u8` cast of the flood
averages) is made explicit via `% 256`.
-/

namespace Pixfix

/-- One RGBA pixel, one 8-bit channel per field (values 0..255). -/
structure Rgba where
  r : Nat
  g : Nat
  b : Nat
  a : Nat
deriving DecidableEq, Repr

/-- Pointwise functional update: the embedding of one in-place buffer write. -/
def updf (f : Nat → α) (i : Nat) (v : α) : Nat → α :=
  fun j => if j = i then v else f j

theorem updf_same (f : Nat → α) (i : Nat) (v : α) : updf f i v i = v := by
  simp [updf]

theorem updf_other (f : Nat → α) (i : Nat) (v : α) (j : Nat) (h : j ≠ i) :
    updf f i v j = f j := by
  simp [updf, h]

/-- A `foldl` preserves any invariant preserved by its step function. -/
theorem foldl_inv {σ κ : Type _} (step : σ → κ → σ) (P : σ → Prop)
    (L : List κ) (s : σ) (hstep : ∀ s c, c ∈ L → P s → P (step s c)) (hs : P s) :
    P (L.foldl step s) := by
  induction L generalizing s with
  | nil => exact hs
  | cons c rest ih =>
    exact ih (step s c) (fun s' c' hc' => hstep s' c' (List.mem_cons_of_mem _ hc'))
      (hstep s c (List.mem_cons_self _ _) hs)

/-- A loop body that conditionally writes one computed value at one key.
`val c = none` models an iteration that writes nothing. -/
def writeStep (key : κ → Nat) (val : κ → Option α) (f : Nat → α) (c : κ) :
    Nat → α :=
  match val c with
  | some v => updf f (key c) v
  | none => f

theorem foldl_write_notmem (key : κ → Nat) (val : κ → Option α)
    (L : List κ) (f : Nat → α) (i : Nat) (h : ∀ c ∈ L, key c ≠ i) :
    L.foldl (writeStep key val) f i = f i := by
  induction L generalizing f with
  | nil => rfl
  | cons c rest ih =>
    have hrest : ∀ c' ∈ rest, key c' ≠ i := fun c' hc' =>
      h c' (List.mem_cons_of_mem _ hc')
    have hc : key c ≠ i := h c (List.mem_cons_self _ _)
    have : writeStep key val f c i = f i := by
      unfold writeStep
      cases val c with
      | some v => exact updf_other f (key c) v i (fun he => hc he.symm)
      | none => rfl
    simpa [List.foldl_cons, this] using ih (writeStep key val f c) hrest

theorem foldl_write_mem (key : κ → Nat) (val : κ → Option α)
    (L : List κ) (f : Nat → α) (c : κ)
    (hnd : (L.map key).Nodup) (hc : c ∈ L) :
    L.foldl (writeStep key val) f (key c) = (val c).getD (f (key c)) := by
  induction L generalizing f with
  | nil => cases hc
  | cons d rest ih =>
    simp only [List.map_cons, List.nodup_cons] at hnd
    rcases List.mem_cons.mp hc with rfl | hmem
    · -- the head is our element: its write lands, the tail never touches the key
      have hrest : ∀ c' ∈ rest, key c' ≠ key c := by
        intro c' hc' he
        exact hnd.1 (he ▸ List.mem_map_of_mem key hc')
      have htail := foldl_write_notmem key val rest (writeStep key val f c) (key c) hrest
      rw [List.foldl_cons, htail]
      unfold writeStep
      cases hv : val c with
      | some v => simp [updf_same]
      | none => simp
    · -- the head is distinct from our element, so it leaves our key alone
      have hne : key d ≠ key c := by
        intro he
        exact hnd.1 (he ▸ List.mem_map_of_mem key hmem)
      have hhead : writeStep key val f d (key c) = f (key c) := by
        unfold writeStep
        cases val d with
        | some v => exact updf_other f (key d) v (key c) (fun he => hne he.symm)
        | none => rfl
      rw [List.foldl_cons]
      rw [ih (writeStep key val f d) hnd.2 hmem, hhead]

/-- If every performed write of a fold writes the same constant value, then any
key that is certainly written ends up holding that constant (no distinctness of
keys needed). -/
theorem foldl_write_const_mem (key : κ → Nat) (val : κ → Option α) (v0 : α)
    (L : List κ) (f : Nat → α) (c : κ)
    (hall : ∀ d ∈ L, val d = none ∨ val d = some v0)
    (hc : c ∈ L) (hv : val c = some v0) :
    L.foldl (writeStep key val) f (key c) = v0 := by
  induction L generalizing f with
  | nil => cases hc
  | cons d rest ih =>
    have hall' : ∀ e ∈ rest, val e = none ∨ val e = some v0 := fun e he =>
      hall e (List.mem_cons_of_mem _ he)
    rcases List.mem_cons.mp hc with rfl | hmem
    · -- our element is written now; later steps can only rewrite the same value
      have hafter : ∀ (g : Nat → α), g (key c) = v0 →
          rest.foldl (writeStep key val) g (key c) = v0 := by
        intro g hg
        refine foldl_inv (writeStep key val) (fun f' => f' (key c) = v0) rest g ?_ hg
        intro f' e he hf'
        rcases hall' e he with hnone | hsome
        · simpa [writeStep, hnone] using hf'
        · by_cases hk : key c = key e
          · simp [writeStep, hsome, hk, updf_same]
          · simpa [writeStep, hsome, updf_other _ _ _ _ hk] using hf'
      rw [List.foldl_cons]
      apply hafter
      simp [writeStep, hv, updf_same]
    · rw [List.foldl_cons]
      exact ih _ hall' hmem

end Pixfix

namespace Pixfix.Main

/-! ## Embedding of `src/main.rs` (nearest-border-point pipeline) -/

/-- `static NEIGHBORS: &[(i32, i32)]` — the 8 Moore offsets (main.rs:16-25). -/
def NEIGHBORS : List (Int × Int) :=
  [(-1, -1), (0, -1), (1, -1), (1, 0), (1, 1), (0, 1), (-1, 1), (-1, 0)]

/-- A decoded RGBA raster: `rgba_img` with its dimensions (main.rs:119-120).
The buffer maps the row-major pixel index `y * width + x` to the pixel. -/
structure Img where
  width : Nat
  height : Nat
  buf : Nat → Rgba

/-- Row-major pixel index of a coordinate: the source's
`y as usize * stride + x as usize * 4` byte address, at pixel granularity. -/
def pidx (w : Nat) (c : Nat × Nat) : Nat := c.2 * w + c.1

/-- Row-major iteration order of the classifier pass: `for y in 0..height
{ for x in 0..width { ... } }` (main.rs:133-134). -/
def coordsRowMajor (w h : Nat) : List (Nat × Nat) :=
  (List.range h).flatMap fun y => (List.range w).map fun x => (x, y)

/-- The border test of the classifier (main.rs:144-158): some Moore neighbor is
in bounds and has alpha 0.  Out-of-bounds neighbors yield `false`. -/
def isBorder (img : Img) (x y : Nat) : Bool :=
  NEIGHBORS.any fun d =>
    let neighborX : Int := (x : Int) + d.1
    let neighborY : Int := (y : Int) + d.2
    if neighborX < 0 ∨ neighborY < 0 ∨ neighborX ≥ (img.width : Int) ∨
        neighborY ≥ (img.height : Int) then
      false
    else
      (img.buf (pidx img.width (neighborX.toNat, neighborY.toNat))).a == 0

/-- One iteration of the classifier pass (main.rs:133-170): a pixel with alpha
0 is recorded as a transparent target; otherwise, if the border test holds, its
coordinate and RGB are recorded as a border point (`points`/`colors`/
`position_to_index`, kept here as one association list). -/
def classStep (img : Img)
    (acc : List (Nat × Nat) × List ((Nat × Nat) × Nat × Nat × Nat))
    (c : Nat × Nat) :
    List (Nat × Nat) × List ((Nat × Nat) × Nat × Nat × Nat) :=
  let px := img.buf (pidx img.width c)
  if px.a = 0 then (acc.1 ++ [c], acc.2)
  else if isBorder img c.1 c.2 then (acc.1, acc.2 ++ [(c, (px.r, px.g, px.b))])
  else acc

/-- The single classifier pass over the raster (main.rs:133-170), returning
the transparent-pixel list and the border-point association list. -/
def classify (img : Img) :
    List (Nat × Nat) × List ((Nat × Nat) × Nat × Nat × Nat) :=
  (coordsRowMajor img.width img.height).foldl (classStep img) ([], [])

/-- Squared Euclidean distance between two pixel coordinates.  The source
compares `f64` distances of integer-valued points; for raster-sized integers
those comparisons are exact, so `Int` arithmetic is a faithful model. -/
def dist2 (p q : Nat × Nat) : Int :=
  ((p.1 : Int) - (q.1 : Int)) ^ 2 + ((p.2 : Int) - (q.2 : Int)) ^ 2

/-- Modelled from the external `spade` crate's contract: the Delaunay
triangulation's `nearest_neighbor` query (main.rs:187-188) returns a point of
the indexed set at minimum Euclidean distance from the query point,
deterministically for a fixed construction.  Here: the first minimizer in
insertion order. -/
def nearest (pts : List (Nat × Nat)) (q : Nat × Nat) : Option (Nat × Nat) :=
  pts.foldl
    (fun best p =>
      match best with
      | none => some p
      | some b => if dist2 p q < dist2 b q then some p else best)
    none

/-- `position_to_index.get` followed by `colors[closest_index]`
(main.rs:192-195): resolve a border coordinate to its recorded RGB.  The
`HashMap` plus parallel vectors are modelled as one association list; border
coordinates are distinct, so `find?` returns the unique entry. -/
def findColor (border : List ((Nat × Nat) × Nat × Nat × Nat)) (p : Nat × Nat) :
    Option (Nat × Nat × Nat) :=
  (border.find? fun e => decide (e.1 = p)).map fun e => e.2

/-- The value written for one transparent pixel (main.rs:186-204): the RGB of
the nearest border point, with alpha 255 in debug mode and 0 otherwise; `none`
if either nested lookup fails (then no write happens). -/
def fillValue (border : List ((Nat × Nat) × Nat × Nat × Nat)) (debug : Bool)
    (c : Nat × Nat) : Option Rgba :=
  match nearest (border.map Prod.fst) c with
  | none => none
  | some p =>
    match findColor border p with
    | none => none
    | some rgb => some ⟨rgb.1, rgb.2.1, rgb.2.2, if debug then 255 else 0⟩

/-- The fill loop over the collected transparent pixels (main.rs:186-205). -/
def fillTransparent (img : Img)
    (border : List ((Nat × Nat) × Nat × Nat × Nat))
    (transparent : List (Nat × Nat)) (debug : Bool) : Nat → Rgba :=
  transparent.foldl (writeStep (pidx img.width) (fillValue border debug)) img.buf

/-- `convert_image` (main.rs:106-214).  `openResult = none` models an
`image::open` error; `triOk` models success of the external
`Triangulation::bulk_load`; `saveOk` models success of `rgba_img.save`.
Result: the success flag returned to the orchestrator, and the raster handed
to the save call (`none` when the function returns before saving). -/
def convertImage (openResult : Option Img) (debug triOk saveOk : Bool) :
    Bool × Option (Nat → Rgba) :=
  match openResult with
  | none => (false, none)
  | some img =>
    let cls := classify img
    if cls.2.isEmpty then (false, none)
    else if !triOk then (false, none)
    else
      let out := fillTransparent img cls.2 cls.1 debug
      (saveOk, some out)

end Pixfix.Main

namespace Pixfix.Maina

/-! ## Embedding of `src/maina.rs` (flood-averaging pipeline) -/

/-- `enum BleedStage` (maina.rs:15-20). -/
inductive BleedStage where
  | Unprocessed
  | Staged
  | Processed
deriving DecidableEq, Repr

/-- `const NEIGHBOR_LOCATIONS: [(i32, i32); 8]` (maina.rs:22-31). -/
def NEIGHBOR_LOCATIONS : List (Int × Int) :=
  [(-1, -1), (0, -1), (1, -1), (1, 0), (1, 1), (0, 1), (-1, 1), (-1, 0)]

/-- `fn neighbors` (maina.rs:105-114): Moore offsets filtered by
`x1 > 0 && y1 > 0 && x1 < w && y1 < h`, then mapped to absolute coordinates.
Note the strict lower bounds of the source, which exclude row 0 and column 0. -/
def neighbors (x y w h : Int) : List (Int × Int) :=
  (NEIGHBOR_LOCATIONS.filter fun d =>
      decide (x + d.1 > 0 ∧ y + d.2 > 0 ∧ x + d.1 < w ∧ y + d.2 < h)).map
    fun d => (x + d.1, y + d.2)

/-- `(y * width + x) as usize` (maina.rs:259 etc.). -/
def pixelIndex (w x y : Int) : Nat := (y * w + x).toNat

/-- `0..n` as a list of `Int`s. -/
def intRange (n : Int) : List Int := (List.range n.toNat).map Int.ofNat

/-- Column-major iteration order of the flood pipeline's raster scans:
`for x in 0..width { for y in 0..height { ... } }` (maina.rs:257-258,
268-269, 336-337). -/
def coordsColMajor (w h : Int) : List (Int × Int) :=
  (intRange w).flatMap fun x => (intRange h).map fun y => (x, y)

/-- The stage-initialisation pass (maina.rs:253-265): start from
`vec![Unprocessed; width*height]` and mark every pixel with alpha > 0 as
`Processed`. -/
def stageInit (w h : Int) (lookup : Nat → Rgba) : Nat → BleedStage :=
  (coordsColMajor w h).foldl
    (writeStep (fun c => pixelIndex w c.1 c.2)
      (fun c =>
        if (lookup (pixelIndex w c.1 c.2)).a > 0 then some BleedStage.Processed
        else none))
    (fun _ => BleedStage.Unprocessed)

/-- The inner neighbor scan of the frontier-seeding pass (maina.rs:276-287):
skip out-of-bounds positions (a check the `neighbors` filter already makes
redundant), then mark the first `Unprocessed` neighbor `Staged`, push it onto
`queue0` and `break`. -/
def seedScan (w h : Int) (st : Nat → BleedStage) (q : List (Int × Int)) :
    List (Int × Int) → (Nat → BleedStage) × List (Int × Int)
  | [] => (st, q)
  | n :: rest =>
    if n.1 < 0 ∨ n.1 ≥ w ∨ n.2 < 0 ∨ n.2 ≥ h then seedScan w h st q rest
    else
      let i := pixelIndex w n.1 n.2
      if st i = BleedStage.Unprocessed then (updf st i BleedStage.Staged, q ++ [n])
      else seedScan w h st q rest

/-- The frontier-seeding pass (maina.rs:268-289): for every `Processed` pixel,
scan its `neighbors` and stage the first `Unprocessed` one. -/
def seedFrontier (w h : Int) (st0 : Nat → BleedStage) :
    (Nat → BleedStage) × List (Int × Int) :=
  (coordsColMajor w h).foldl
    (fun acc c =>
      if acc.1 (pixelIndex w c.1 c.2) = BleedStage.Processed then
        seedScan w h acc.1 acc.2 (neighbors c.1 c.2 w h)
      else acc)
    (st0, [])

/-- The `u32` accumulators and mutable state of one frontier pixel's neighbor
scan (maina.rs:297-314): count and channel sums, plus the threaded stage array
and next-frontier queue. -/
structure ScanAcc where
  c : Nat
  r : Nat
  g : Nat
  b : Nat
  stages : Nat → BleedStage
  queue1 : List (Int × Int)

/-- One neighbor of one frontier pixel (maina.rs:302-314): a `Processed`
neighbor contributes its `lookup` RGB to the sums; an `Unprocessed` neighbor
is marked `Staged` and pushed onto `queue1`; a `Staged` neighbor is skipped.
The sums of at most 8 values ≤ 255 stay far below 2^32, so plain `Nat`
addition models the `u32` arithmetic exactly. -/
def scanStep (w : Int) (lookup : Nat → Rgba) (acc : ScanAcc) (n : Int × Int) :
    ScanAcc :=
  let i1 := pixelIndex w n.1 n.2
  match acc.stages i1 with
  | BleedStage.Processed =>
    { acc with
      c := acc.c + 1
      r := acc.r + (lookup i1).r
      g := acc.g + (lookup i1).g
      b := acc.b + (lookup i1).b }
  | BleedStage.Unprocessed =>
    { acc with stages := updf acc.stages i1 BleedStage.Staged
               queue1 := acc.queue1 ++ [n] }
  | BleedStage.Staged => acc

/-- `r as u8` etc. (maina.rs:320-322): the 8-bit truncation of the cast. -/
def toU8 (n : Nat) : Nat := n % 256

/-- One frontier pixel of one averaging round (maina.rs:293-323): scan its
neighbors, then, if at least one `Processed` neighbor was found, overwrite the
pixel's RGB in `value` with the truncated channel means; its alpha byte is not
touched here. -/
def processPixel (w h : Int) (lookup : Nat → Rgba)
    (acc : (Nat → Rgba) × ScanAcc) (p : Int × Int) :
    (Nat → Rgba) × ScanAcc :=
  let i := pixelIndex w p.1 p.2
  let s := (neighbors p.1 p.2 w h).foldl (scanStep w lookup)
    { c := 0, r := 0, g := 0, b := 0, stages := acc.2.stages, queue1 := acc.2.queue1 }
  let value :=
    if s.c > 0 then
      updf acc.1 i
        { acc.1 i with
          r := toU8 (s.r / s.c), g := toU8 (s.g / s.c), b := toU8 (s.b / s.c) }
    else acc.1
  (value, s)

/-- The promotion pass after a round (maina.rs:326-329): every pixel of the
just-processed frontier becomes `Processed`. -/
def promote (w : Int) (st : Nat → BleedStage) (q : List (Int × Int)) :
    Nat → BleedStage :=
  q.foldl
    (writeStep (fun c => pixelIndex w c.1 c.2) (fun _ => some BleedStage.Processed))
    st

/-- One full round of the propagation loop (maina.rs:292-333): average every
frontier pixel while collecting the next frontier, then promote the current
frontier, then swap queues. -/
def floodRound (w h : Int) (lookup : Nat → Rgba) (value : Nat → Rgba)
    (stages : Nat → BleedStage) (queue0 : List (Int × Int)) :
    (Nat → Rgba) × (Nat → BleedStage) × List (Int × Int) :=
  let r := queue0.foldl (processPixel w h lookup)
    (value, { c := 0, r := 0, g := 0, b := 0, stages := stages, queue1 := [] })
  (r.1, promote w r.2.stages queue0, r.2.queue1)

/-- Result of the propagation loop, together with two ghost observers used
only to state invariants: the successive frontiers created by the rounds, and
the stage array after each round. -/
structure LoopOut where
  value : Nat → Rgba
  stages : Nat → BleedStage
  frontiers : List (List (Int × Int))
  snaps : List (Nat → BleedStage)

/-- `while !queue0.is_empty()` (maina.rs:292-334), by fuel.  The two ghost
fields record each round's freshly created frontier and post-promotion stage
array; the computational fields ignore them. -/
def floodLoopAux (w h : Int) (lookup : Nat → Rgba) :
    Nat → (Nat → Rgba) → (Nat → BleedStage) → List (Int × Int) → LoopOut
  | 0, value, stages, _ => ⟨value, stages, [], []⟩
  | Nat.succ fuel, value, stages, queue0 =>
    if queue0.isEmpty then ⟨value, stages, [], []⟩
    else
      let r := floodRound w h lookup value stages queue0
      let rest := floodLoopAux w h lookup fuel r.1 r.2.1 r.2.2
      ⟨rest.value, rest.stages, r.2.2 :: rest.frontiers, r.2.1 :: rest.snaps⟩

/-- The final solidifying pass (maina.rs:336-341): force every pixel's alpha
byte to 255. -/
def forceAlpha (w h : Int) (value : Nat → Rgba) : Nat → Rgba :=
  (coordsColMajor w h).foldl
    (fun v c =>
      let i := pixelIndex w c.1 c.2
      updf v i { v i with a := 255 })
    value

/-- The whole `DecodingResult::U8` arm of `fix_alpha_bleed` (maina.rs:241-341)
applied to the pixel buffer: clone the buffer as `lookup`, initialise stages,
seed the frontier, run the propagation loop, then force alpha.  The real loop
terminates because each round strictly grows the `Processed` set, so
`width*height + 1` rounds of fuel always suffice. -/
def floodU8 (w h : Int) (buf : Nat → Rgba) : Nat → Rgba :=
  let lookup := buf
  let st0 := stageInit w h lookup
  let seeded := seedFrontier w h st0
  let out := floodLoopAux w h lookup (w.toNat * h.toNat + 1) buf seeded.1 seeded.2
  forceAlpha w h out.value

/-- `zune_core` color spaces, as far as this program distinguishes them. -/
inductive ColorSpace where
  | RGBA
  | RGB
  | Luma
  | LumaA
deriving DecidableEq, Repr

def csName : ColorSpace → String
  | ColorSpace.RGBA => "RGBA"
  | ColorSpace.RGB => "RGB"
  | ColorSpace.Luma => "Luma"
  | ColorSpace.LumaA => "LumaA"

/-- The cause string of maina.rs:124-132. -/
def csError (cs : ColorSpace) : String :=
  "Wrong Color Space! Expected RGBA, got " ++ csName cs ++ "!"

/-- `zune_png::DecodingResult`, at the granularity `fix_alpha_bleed` matches
on: an 8-bit buffer (modelled at pixel granularity), a 16-bit buffer, or
anything else. -/
inductive DecodingResult where
  | U8 (buf : Nat → Rgba)
  | U16
  | other

/-- The inputs `fix_alpha_bleed` receives from the external collaborators
(`fs::read`, `PngDecoder::decode`, `get_colorspace`, `get_dimensions`):
whether the read and the decode succeed, and the decoded metadata and data. -/
structure PngFile where
  readOk : Bool
  decodeOk : Bool
  colorSpace : ColorSpace
  width : Int
  height : Int
  result : DecodingResult

/-- The per-file outcome of `fix_alpha_bleed`: the returned
`(bool, Option<String>)` plus the buffer handed to the PNG encoder and
`fs::write` (`none` when nothing is encoded or written). -/
structure FixResult where
  success : Bool
  error : Option String
  written : Option (Nat → Rgba)

/-- `fn fix_alpha_bleed` (maina.rs:116-362).  `Except.error` models a panic
propagating out of the function: `read(path).unwrap()` (maina.rs:117) and
`decoder.decode().unwrap()` (maina.rs:120) panic on failure instead of
returning `(false, cause)`.  A non-RGBA colorspace returns the error tuple of
maina.rs:124-132.  A `U8` result runs the flood fill and writes the buffer
back (maina.rs:241-353); a `U16` result only hits `dbg!` (maina.rs:355-357)
and any other result matches the catch-all `_ => {}` (maina.rs:358) — both
fall through to `return (true, None)` (maina.rs:361) without writing. -/
def fixAlphaBleed (f : PngFile) : Except String FixResult :=
  if !f.readOk then Except.error "panicked: fs::read returned Err"
  else if !f.decodeOk then Except.error "panicked: PngDecoder::decode returned Err"
  else if f.colorSpace ≠ ColorSpace.RGBA then
    Except.ok ⟨false, some (csError f.colorSpace), none⟩
  else
    match f.result with
    | DecodingResult.U8 buf =>
      Except.ok ⟨true, none, some (floodU8 f.width f.height buf)⟩
    | DecodingResult.U16 => Except.ok ⟨true, none, none⟩
    | DecodingResult.other => Except.ok ⟨true, none, none⟩

end Pixfix.Maina

namespace Pixfix.Batch

/-! ## Embedding of the orchestrator's shared result counters (main.rs:238-269)

The two `Arc<AtomicU16>` counters are mutated only through `fetch_add` with
relaxed ordering; addition commutes, so an arbitrary interleaving of the
per-task increments is an arbitrary permutation of one increment per
dispatched task. -/

/-- A wrapping `AtomicU16::fetch_add(n)` result value. -/
def fetchAdd (c n : Nat) : Nat := (c + n) % 65536

/-- One completed task's single increment (main.rs:260-265): `fixed` on
success, `failed` otherwise. -/
def applyResult (s : Nat × Nat) (ok : Bool) : Nat × Nat :=
  if ok then (fetchAdd s.1 1, s.2) else (s.1, fetchAdd s.2 1)

/-- All dispatched tasks' increments, applied in the order the interleaving
completes them. -/
def runTasks (init : Nat × Nat) (results : List Bool) : Nat × Nat :=
  results.foldl applyResult init

/-- The counters of one batch run (main.rs:239-269): both start at 0, the
count of resolved-but-ignored files is added to `failed` up front
(main.rs:252-253), then every dispatched task contributes exactly one
increment. -/
def batchCounters (numIgnored : Nat) (results : List Bool) : Nat × Nat :=
  runTasks (0, fetchAdd 0 numIgnored) results

end Pixfix.Batch

namespace Pixfix.Main

/-! ### Properties of the classifier and fill of `main.rs` -/

theorem mem_coordsRowMajor (w h : Nat) (c : Nat × Nat) :
    c ∈ coordsRowMajor w h ↔ c.1 < w ∧ c.2 < h := by
  cases c with
  | mk x y =>
    simp only [coordsRowMajor, List.mem_flatMap, List.mem_map, List.mem_range]
    constructor
    · rintro ⟨y', hy', x', hx', he⟩
      cases he
      exact ⟨hx', hy'⟩
    · rintro ⟨hx, hy⟩
      exact ⟨y, hy, x, hx, rfl⟩

theorem nodup_coordsRowMajor (w h : Nat) : (coordsRowMajor w h).Nodup := by
  unfold coordsRowMajor
  rw [List.nodup_flatMap]
  refine ⟨fun y _ => ?_, ?_⟩
  · exact (List.nodup_range w).map fun a b hab => congrArg Prod.fst hab
  · refine List.Pairwise.imp ?_ (List.pairwise_lt_range h)
    intro y y' hlt c hc hc'
    simp only [List.mem_map, List.mem_range] at hc hc'
    obtain ⟨x, _, rfl⟩ := hc
    obtain ⟨x', _, he⟩ := hc'
    have : y' = y := congrArg Prod.snd he
    omega

theorem pidx_inj (w : Nat) (c c' : Nat × Nat) (hc : c.1 < w) (hc' : c'.1 < w)
    (h : pidx w c = pidx w c') : c = c' := by
  have hw : 0 < w := Nat.lt_of_le_of_lt (Nat.zero_le _) hc
  have hx : c.1 = c'.1 := by
    have h' : (w * c.2 + c.1) % w = (w * c'.2 + c'.1) % w := by
      unfold pidx at h
      rw [Nat.mul_comm w c.2, Nat.mul_comm w c'.2]
      rw [h]
    rwa [Nat.mul_add_mod, Nat.mul_add_mod, Nat.mod_eq_of_lt hc,
      Nat.mod_eq_of_lt hc'] at h'
  have hy : c.2 = c'.2 := by
    have h' : (w * c.2 + c.1) / w = (w * c'.2 + c'.1) / w := by
      unfold pidx at h
      rw [Nat.mul_comm w c.2, Nat.mul_comm w c'.2]
      rw [h]
    rwa [Nat.mul_add_div hw, Nat.mul_add_div hw, Nat.div_eq_of_lt hc,
      Nat.div_eq_of_lt hc', Nat.add_zero, Nat.add_zero] at h'
  cases c
  cases c'
  cases hx
  cases hy
  rfl

/-- The transparency test of the classifier, as a Boolean predicate. -/
def transparentP (img : Img) (c : Nat × Nat) : Bool :=
  (img.buf (pidx img.width c)).a == 0

/-- The border-point test of the classifier, as a Boolean predicate. -/
def borderP (img : Img) (c : Nat × Nat) : Bool :=
  !transparentP img c && isBorder img c.1 c.2

/-- The recorded border entry of a border coordinate. -/
def borderEntry (img : Img) (c : Nat × Nat) : (Nat × Nat) × Nat × Nat × Nat :=
  (c, ((img.buf (pidx img.width c)).r, (img.buf (pidx img.width c)).g,
    (img.buf (pidx img.width c)).b))

theorem classify_go (img : Img) :
    ∀ (L : List (Nat × Nat)) (t0 : List (Nat × Nat))
      (b0 : List ((Nat × Nat) × Nat × Nat × Nat)),
      L.foldl (classStep img) (t0, b0) =
        (t0 ++ L.filter (transparentP img),
          b0 ++ (L.filter (borderP img)).map (borderEntry img)) := by
  intro L
  induction L with
  | nil => intro t0 b0; simp
  | cons c rest ih =>
    intro t0 b0
    by_cases ht : (img.buf (pidx img.width c)).a = 0
    · have h1 : transparentP img c = true := by
        simp [transparentP, ht]
      have h2 : classStep img (t0, b0) c = (t0 ++ [c], b0) := by
        simp [classStep, ht]
      rw [List.foldl_cons, h2, ih]
      have h3 : borderP img c = false := by
        simp [borderP, h1]
      simp [List.filter_cons, h1, h3]
    · have h1 : transparentP img c = false := by
        simp [transparentP, ht]
      by_cases hbdr : isBorder img c.1 c.2
      · have h2 : classStep img (t0, b0) c = (t0, b0 ++ [borderEntry img c]) := by
          simp [classStep, ht, hbdr, borderEntry]
        have h3 : borderP img c = true := by
          simp [borderP, h1, hbdr]
        rw [List.foldl_cons, h2, ih]
        simp [List.filter_cons, h1, h3]
      · have h2 : classStep img (t0, b0) c = (t0, b0) := by
          simp [classStep, ht, hbdr]
        have h3 : borderP img c = false := by
          simp [borderP, hbdr]
        rw [List.foldl_cons, h2, ih]
        simp [List.filter_cons, h1, h3]

theorem classify_eq (img : Img) :
    classify img =
      ((coordsRowMajor img.width img.height).filter (transparentP img),
        ((coordsRowMajor img.width img.height).filter (borderP img)).map
          (borderEntry img)) := by
  unfold classify
  rw [classify_go]
  simp

theorem mem_transparent (img : Img) (c : Nat × Nat) :
    c ∈ (classify img).1 ↔
      c.1 < img.width ∧ c.2 < img.height ∧
        (img.buf (pidx img.width c)).a = 0 := by
  rw [classify_eq]
  simp only [List.mem_filter, mem_coordsRowMajor, transparentP, beq_iff_eq]
  tauto

theorem transparent_keys_nodup (img : Img) :
    ((classify img).1.map (pidx img.width)).Nodup := by
  rw [classify_eq]
  apply List.Nodup.map_on
  · intro c hc c' hc' he
    have h1 := (List.mem_filter.mp hc).1
    have h2 := (List.mem_filter.mp hc').1
    exact pidx_inj img.width c c' ((mem_coordsRowMajor _ _ _).mp h1).1
      ((mem_coordsRowMajor _ _ _).mp h2).1 he
  · exact (nodup_coordsRowMajor _ _).filter _

theorem border_fsts (img : Img) :
    (classify img).2.map Prod.fst =
      (coordsRowMajor img.width img.height).filter (borderP img) := by
  rw [classify_eq]
  simp [List.map_map]
  have : (Prod.fst ∘ borderEntry img) = id := by
    funext c
    rfl
  rw [this, List.map_id]

/-- One comparison step of the linear minimum scan modelling the
nearest-neighbor query. -/
def nearestStep (q : Nat × Nat) (best : Option (Nat × Nat)) (p : Nat × Nat) :
    Option (Nat × Nat) :=
  match best with
  | none => some p
  | some b => if dist2 p q < dist2 b q then some p else best

theorem nearest_def (pts : List (Nat × Nat)) (q : Nat × Nat) :
    nearest pts q = pts.foldl (nearestStep q) none := by
  rfl

theorem nearest_fold_spec (q : Nat × Nat) :
    ∀ (pts : List (Nat × Nat)) (b : Nat × Nat),
      ∃ p, pts.foldl (nearestStep q) (some b) = some p ∧
        (p = b ∨ p ∈ pts) ∧ dist2 p q ≤ dist2 b q ∧
        ∀ r ∈ pts, dist2 p q ≤ dist2 r q := by
  intro pts
  induction pts with
  | nil => intro b; exact ⟨b, rfl, Or.inl rfl, le_refl _, by intro r hr; cases hr⟩
  | cons r rest ih =>
    intro b
    by_cases hlt : dist2 r q < dist2 b q
    · obtain ⟨p, hp, hmem, hle, hmin⟩ := ih r
      refine ⟨p, ?_, ?_, ?_, ?_⟩
      · simpa [nearestStep, hlt] using hp
      · rcases hmem with rfl | h
        · exact Or.inr (List.mem_cons_self _ _)
        · exact Or.inr (List.mem_cons_of_mem _ h)
      · exact hle.trans (le_of_lt hlt)
      · intro s hs
        rcases List.mem_cons.mp hs with rfl | h
        · exact hle
        · exact hmin s h
    · obtain ⟨p, hp, hmem, hle, hmin⟩ := ih b
      refine ⟨p, ?_, ?_, hle, ?_⟩
      · simpa [nearestStep, hlt] using hp
      · rcases hmem with rfl | h
        · exact Or.inl rfl
        · exact Or.inr (List.mem_cons_of_mem _ h)
      · intro s hs
        rcases List.mem_cons.mp hs with rfl | h
        · exact le_trans hle (le_of_not_lt hlt)
        · exact hmin s h

theorem nearest_spec (pts : List (Nat × Nat)) (q : Nat × Nat) (hne : pts ≠ []) :
    ∃ p, nearest pts q = some p ∧ p ∈ pts ∧
      ∀ r ∈ pts, dist2 p q ≤ dist2 r q := by
  cases pts with
  | nil => exact absurd rfl hne
  | cons r rest =>
    obtain ⟨p, hp, hmem, hle, hmin⟩ := nearest_fold_spec q rest r
    refine ⟨p, ?_, ?_, ?_⟩
    · rw [nearest_def]
      simpa [nearestStep] using hp
    · rcases hmem with rfl | h
      · exact List.mem_cons_self _ _
      · exact List.mem_cons_of_mem _ h
    · intro s hs
      rcases List.mem_cons.mp hs with rfl | h
      · exact hle
      · exact hmin s h

theorem findColor_spec (border : List ((Nat × Nat) × Nat × Nat × Nat))
    (p : Nat × Nat) (hp : p ∈ border.map Prod.fst) :
    ∃ rgb, findColor border p = some rgb ∧ (p, rgb) ∈ border := by
  obtain ⟨e, he, rfl⟩ := List.mem_map.mp hp
  have hsome : (border.find? fun e' => decide (e'.1 = e.1)).isSome = true := by
    rw [List.find?_isSome]
    exact ⟨e, he, by simp⟩
  obtain ⟨e', he'⟩ := Option.isSome_iff_exists.mp hsome
  have hmem := List.mem_of_find?_eq_some he'
  have hfst : e'.1 = e.1 := by
    have := List.find?_some he'
    simpa using this
  refine ⟨e'.2, ?_, ?_⟩
  · simp [findColor, he']
  · rw [← hfst]
    exact hmem

theorem fillValue_spec (border : List ((Nat × Nat) × Nat × Nat × Nat))
    (debug : Bool) (c : Nat × Nat) (hne : border ≠ []) :
    ∃ e, (e ∈ border ∧ ∀ e' ∈ border, dist2 e.1 c ≤ dist2 e'.1 c) ∧
      fillValue border debug c =
        some ⟨e.2.1, e.2.2.1, e.2.2.2, if debug then 255 else 0⟩ := by
  have hptsne : border.map Prod.fst ≠ [] := by
    intro h
    exact hne (List.map_eq_nil_iff.mp h)
  obtain ⟨p, hp, hpmem, hpmin⟩ := nearest_spec (border.map Prod.fst) c hptsne
  obtain ⟨rgb, hrgb, hrgbmem⟩ := findColor_spec border p hpmem
  refine ⟨(p, rgb), ⟨hrgbmem, ?_⟩, ?_⟩
  · intro e' he'
    exact hpmin e'.1 (List.mem_map_of_mem Prod.fst he')
  · simp [fillValue, hp, hrgb]

end Pixfix.Main

namespace Pixfix

theorem updf_self (f : Nat → α) (i : Nat) : updf f i (f i) = f := by
  funext j
  by_cases hj : j = i
  · subst hj
    rw [updf_same]
  · rw [updf_other _ _ _ _ hj]

end Pixfix

namespace Pixfix.Maina

/-! ### Stage ordering: Unprocessed → Staged → Processed -/

/-- Numeric rank of a stage along the forward direction. -/
def rank : BleedStage → Nat
  | BleedStage.Unprocessed => 0
  | BleedStage.Staged => 1
  | BleedStage.Processed => 2

theorem rank_le_two (s : BleedStage) : rank s ≤ 2 := by
  cases s <;> simp [rank]

/-- Pointwise forward order on stage arrays: no pixel's stage moves backward. -/
def stageLE (s t : Nat → BleedStage) : Prop := ∀ i, rank (s i) ≤ rank (t i)

theorem stageLE_refl (s : Nat → BleedStage) : stageLE s s := fun _ => le_refl _

theorem stageLE_trans {s t u : Nat → BleedStage} (h1 : stageLE s t)
    (h2 : stageLE t u) : stageLE s u := fun i => (h1 i).trans (h2 i)

theorem stageLE_updf (st : Nat → BleedStage) (i : Nat) (v : BleedStage)
    (h : rank (st i) ≤ rank v) : stageLE st (updf st i v) := by
  intro j
  by_cases hj : j = i
  · subst hj
    rw [updf_same]
    exact h
  · rw [updf_other _ _ _ _ hj]

theorem seedScan_mono (w h : Int) :
    ∀ (ns : List (Int × Int)) (st : Nat → BleedStage) (q : List (Int × Int)),
      stageLE st (seedScan w h st q ns).1 := by
  intro ns
  induction ns with
  | nil => intro st q; exact stageLE_refl st
  | cons n rest ih =>
    intro st q
    by_cases hb : n.1 < 0 ∨ n.1 ≥ w ∨ n.2 < 0 ∨ n.2 ≥ h
    · simpa [seedScan, hb] using ih st q
    · by_cases hu : st (pixelIndex w n.1 n.2) = BleedStage.Unprocessed
      · simp only [seedScan, hb, if_false, hu, if_true]
        exact stageLE_updf st _ _ (by rw [hu]; exact Nat.zero_le _)
      · simpa [seedScan, hb, hu] using ih st q

theorem seedFrontier_mono (w h : Int) (st0 : Nat → BleedStage) :
    stageLE st0 (seedFrontier w h st0).1 := by
  unfold seedFrontier
  refine foldl_inv _ (fun acc : (Nat → BleedStage) × List (Int × Int) =>
    stageLE st0 acc.1) _ _ ?_ (stageLE_refl st0)
  intro acc c _ hacc
  by_cases hp : acc.1 (pixelIndex w c.1 c.2) = BleedStage.Processed
  · simp only [if_pos hp]
    exact stageLE_trans hacc (seedScan_mono w h _ acc.1 acc.2)
  · simpa [hp] using hacc

theorem scanStep_mono (w : Int) (lookup : Nat → Rgba) (acc : ScanAcc)
    (n : Int × Int) : stageLE acc.stages (scanStep w lookup acc n).stages := by
  cases hst : acc.stages (pixelIndex w n.1 n.2) with
  | Unprocessed =>
    simp only [scanStep, hst]
    exact stageLE_updf _ _ _ (by rw [hst]; exact Nat.zero_le _)
  | Staged => simp only [scanStep, hst]; exact stageLE_refl _
  | Processed => simp only [scanStep, hst]; exact stageLE_refl _

theorem processPixel_mono (w h : Int) (lookup : Nat → Rgba)
    (acc : (Nat → Rgba) × ScanAcc) (p : Int × Int) :
    stageLE acc.2.stages (processPixel w h lookup acc p).2.stages := by
  have key : (processPixel w h lookup acc p).2 =
      (neighbors p.1 p.2 w h).foldl (scanStep w lookup)
        ⟨0, 0, 0, 0, acc.2.stages, acc.2.queue1⟩ := rfl
  rw [key]
  refine foldl_inv _ (fun a : ScanAcc => stageLE acc.2.stages a.stages) _ _ ?_
    (stageLE_refl _)
  intro a n _ ha
  exact stageLE_trans ha (scanStep_mono w lookup a n)

theorem promote_mono (w : Int) (st : Nat → BleedStage) (q : List (Int × Int)) :
    stageLE st (promote w st q) := by
  unfold promote
  refine foldl_inv _ (fun s : Nat → BleedStage => stageLE st s) _ _ ?_
    (stageLE_refl st)
  intro s c _ hs
  have : writeStep (fun c => pixelIndex w c.1 c.2)
      (fun _ => some BleedStage.Processed) s c =
        updf s (pixelIndex w c.1 c.2) BleedStage.Processed := rfl
  rw [this]
  exact stageLE_trans hs (stageLE_updf s _ _ (rank_le_two _))

theorem floodRound_mono (w h : Int) (lookup value : Nat → Rgba)
    (stages : Nat → BleedStage) (queue0 : List (Int × Int)) :
    stageLE stages (floodRound w h lookup value stages queue0).2.1 := by
  have key : (floodRound w h lookup value stages queue0).2.1 =
      promote w
        (queue0.foldl (processPixel w h lookup)
          (value, ⟨0, 0, 0, 0, stages, []⟩)).2.stages queue0 := rfl
  rw [key]
  have hfold : stageLE stages
      (queue0.foldl (processPixel w h lookup)
        (value, ⟨0, 0, 0, 0, stages, []⟩)).2.stages := by
    refine foldl_inv _ (fun a : (Nat → Rgba) × ScanAcc =>
      stageLE stages a.2.stages) _ _ ?_ (stageLE_refl _)
    intro a p _ ha
    exact stageLE_trans ha (processPixel_mono w h lookup a p)
  exact stageLE_trans hfold (promote_mono w _ queue0)

theorem floodLoop_chain (w h : Int) (lookup : Nat → Rgba) :
    ∀ (fuel : Nat) (value : Nat → Rgba) (st : Nat → BleedStage)
      (q : List (Int × Int)),
      List.Chain' stageLE (st :: (floodLoopAux w h lookup fuel value st q).snaps) := by
  intro fuel
  induction fuel with
  | zero => intro value st q; simp [floodLoopAux]
  | succ fuel ih =>
    intro value st q
    by_cases hq : q.isEmpty
    · simp [floodLoopAux, hq]
    · simp only [floodLoopAux, hq, Bool.false_eq_true, if_false]
      rw [List.chain'_cons]
      exact ⟨floodRound_mono w h lookup value st q, ih _ _ _⟩

/-! ### The enqueue invariant: a staged pixel is never re-enqueued -/

/-- Every coordinate of `l` has already left the `Unprocessed` stage in `st`. -/
def marked (w : Int) (st : Nat → BleedStage) (l : List (Int × Int)) : Prop :=
  ∀ c ∈ l, st (pixelIndex w c.1 c.2) ≠ BleedStage.Unprocessed

theorem marked_nil (w : Int) (st : Nat → BleedStage) : marked w st [] :=
  fun c hc => absurd hc (List.not_mem_nil c)

theorem marked_updf (w : Int) (st : Nat → BleedStage) (l : List (Int × Int))
    (i : Nat) (v : BleedStage) (hm : marked w st l)
    (hv : v ≠ BleedStage.Unprocessed) : marked w (updf st i v) l := by
  intro c hc
  by_cases hj : pixelIndex w c.1 c.2 = i
  · rw [hj, updf_same]
    exact hv
  · rw [updf_other _ _ _ _ hj]
    exact hm c hc

theorem push_inv (w : Int) (st : Nat → BleedStage) (X q : List (Int × Int))
    (n : Int × Int) (hnd : (X ++ q).Nodup) (hm : marked w st (X ++ q))
    (hu : st (pixelIndex w n.1 n.2) = BleedStage.Unprocessed) :
    (X ++ (q ++ [n])).Nodup ∧
      marked w (updf st (pixelIndex w n.1 n.2) BleedStage.Staged)
        (X ++ (q ++ [n])) := by
  have hnot : n ∉ X ++ q := fun hmem => hm n hmem hu
  constructor
  · rw [← List.append_assoc]
    refine List.Nodup.append hnd (List.nodup_singleton n) ?_
    intro a ha hb
    rw [List.mem_singleton] at hb
    subst hb
    exact hnot ha
  · rw [← List.append_assoc]
    intro c hc
    rcases List.mem_append.mp hc with hc1 | hc2
    · exact marked_updf w st (X ++ q) _ _ hm (by simp) c hc1
    · rw [List.mem_singleton] at hc2
      subst hc2
      rw [updf_same]
      simp

theorem seedScan_inv (w h : Int) (X : List (Int × Int)) :
    ∀ (ns : List (Int × Int)) (st : Nat → BleedStage) (q : List (Int × Int)),
      (X ++ q).Nodup → marked w st (X ++ q) →
      ((X ++ (seedScan w h st q ns).2).Nodup ∧
        marked w (seedScan w h st q ns).1 (X ++ (seedScan w h st q ns).2)) := by
  intro ns
  induction ns with
  | nil => intro st q h1 h2; exact ⟨h1, h2⟩
  | cons n rest ih =>
    intro st q h1 h2
    by_cases hb : n.1 < 0 ∨ n.1 ≥ w ∨ n.2 < 0 ∨ n.2 ≥ h
    · simpa [seedScan, hb] using ih st q h1 h2
    · by_cases hu : st (pixelIndex w n.1 n.2) = BleedStage.Unprocessed
      · have := push_inv w st X q n h1 h2 hu
        simpa [seedScan, hb, hu] using this
      · simpa [seedScan, hb, hu] using ih st q h1 h2

theorem seedFrontier_inv (w h : Int) (st0 : Nat → BleedStage) :
    (seedFrontier w h st0).2.Nodup ∧
      marked w (seedFrontier w h st0).1 (seedFrontier w h st0).2 := by
  unfold seedFrontier
  refine foldl_inv _ (fun acc : (Nat → BleedStage) × List (Int × Int) =>
      acc.2.Nodup ∧ marked w acc.1 acc.2) (coordsColMajor w h) (st0, [])
    ?_ ⟨List.nodup_nil, marked_nil w st0⟩
  · intro acc c _ hP
    by_cases hp : acc.1 (pixelIndex w c.1 c.2) = BleedStage.Processed
    · simp only [if_pos hp]
      have := seedScan_inv w h [] (neighbors c.1 c.2 w h) acc.1 acc.2
        (by simpa using hP.1) (by simpa using hP.2)
      simpa using this
    · simpa [hp] using hP

theorem scanStep_inv (w : Int) (lookup : Nat → Rgba) (X : List (Int × Int))
    (acc : ScanAcc) (n : Int × Int)
    (h1 : (X ++ acc.queue1).Nodup) (h2 : marked w acc.stages (X ++ acc.queue1)) :
    ((X ++ (scanStep w lookup acc n).queue1).Nodup ∧
      marked w (scanStep w lookup acc n).stages
        (X ++ (scanStep w lookup acc n).queue1)) := by
  cases hst : acc.stages (pixelIndex w n.1 n.2) with
  | Processed => simp only [scanStep, hst]; exact ⟨h1, h2⟩
  | Staged => simp only [scanStep, hst]; exact ⟨h1, h2⟩
  | Unprocessed =>
    have := push_inv w acc.stages X acc.queue1 n h1 h2 hst
    simp only [scanStep, hst]
    exact this

theorem processPixel_inv (w h : Int) (lookup : Nat → Rgba)
    (X : List (Int × Int)) (acc : (Nat → Rgba) × ScanAcc) (p : Int × Int)
    (h1 : (X ++ acc.2.queue1).Nodup)
    (h2 : marked w acc.2.stages (X ++ acc.2.queue1)) :
    ((X ++ (processPixel w h lookup acc p).2.queue1).Nodup ∧
      marked w (processPixel w h lookup acc p).2.stages
        (X ++ (processPixel w h lookup acc p).2.queue1)) := by
  have key : (processPixel w h lookup acc p).2 =
      (neighbors p.1 p.2 w h).foldl (scanStep w lookup)
        ⟨0, 0, 0, 0, acc.2.stages, acc.2.queue1⟩ := rfl
  rw [key]
  refine foldl_inv _ (fun a : ScanAcc =>
    (X ++ a.queue1).Nodup ∧ marked w a.stages (X ++ a.queue1)) _ _ ?_ ⟨h1, h2⟩
  intro a n _ ha
  exact scanStep_inv w lookup X a n ha.1 ha.2

theorem promote_marked (w : Int) (st : Nat → BleedStage)
    (q l : List (Int × Int)) (hm : marked w st l) :
    marked w (promote w st q) l := by
  unfold promote
  refine foldl_inv _ (fun s : Nat → BleedStage => marked w s l) _ _ ?_ hm
  intro s c _ hs
  have : writeStep (fun c => pixelIndex w c.1 c.2)
      (fun _ => some BleedStage.Processed) s c =
        updf s (pixelIndex w c.1 c.2) BleedStage.Processed := rfl
  rw [this]
  exact marked_updf w s l _ _ hs (by simp)

theorem floodRound_inv (w h : Int) (lookup value : Nat → Rgba)
    (stages : Nat → BleedStage) (q0 X : List (Int × Int))
    (h1 : (X ++ q0).Nodup) (h2 : marked w stages (X ++ q0)) :
    (((X ++ q0) ++ (floodRound w h lookup value stages q0).2.2).Nodup ∧
      marked w (floodRound w h lookup value stages q0).2.1
        ((X ++ q0) ++ (floodRound w h lookup value stages q0).2.2)) := by
  have key2 : (floodRound w h lookup value stages q0).2.2 =
      (q0.foldl (processPixel w h lookup)
        (value, ⟨0, 0, 0, 0, stages, []⟩)).2.queue1 := rfl
  have key1 : (floodRound w h lookup value stages q0).2.1 =
      promote w
        (q0.foldl (processPixel w h lookup)
          (value, ⟨0, 0, 0, 0, stages, []⟩)).2.stages q0 := rfl
  rw [key1, key2]
  have hfold := foldl_inv (processPixel w h lookup)
    (fun a : (Nat → Rgba) × ScanAcc =>
      ((X ++ q0) ++ a.2.queue1).Nodup ∧
        marked w a.2.stages ((X ++ q0) ++ a.2.queue1)) q0
    (value, { c := 0, r := 0, g := 0, b := 0, stages := stages, queue1 := [] })
    (fun a p _ ha => processPixel_inv w h lookup (X ++ q0) a p ha.1 ha.2)
    ⟨by simpa using h1, by simpa using h2⟩
  exact ⟨hfold.1, promote_marked w _ q0 _ hfold.2⟩

theorem floodLoop_nodup (w h : Int) (lookup : Nat → Rgba) :
    ∀ (fuel : Nat) (value : Nat → Rgba) (st : Nat → BleedStage)
      (q0 past : List (Int × Int)),
      (past ++ q0).Nodup → marked w st (past ++ q0) →
      (past ++ q0 ++
        (floodLoopAux w h lookup fuel value st q0).frontiers.flatten).Nodup := by
  intro fuel
  induction fuel with
  | zero =>
    intro value st q0 past h1 h2
    simpa [floodLoopAux] using h1
  | succ fuel ih =>
    intro value st q0 past h1 h2
    by_cases hq : q0.isEmpty
    · simpa [floodLoopAux, hq] using h1
    · obtain ⟨hnd', hm'⟩ := floodRound_inv w h lookup value st q0 past h1 h2
      have hrec := ih (floodRound w h lookup value st q0).1
        (floodRound w h lookup value st q0).2.1
        (floodRound w h lookup value st q0).2.2 (past ++ q0) hnd' hm'
      simp only [floodLoopAux, hq, Bool.false_eq_true, if_false,
        List.flatten_cons]
      simpa [List.append_assoc] using hrec

/-! ### Idempotence support: a fully solid raster never floods -/

theorem mem_intRange (n a : Int) : a ∈ intRange n ↔ 0 ≤ a ∧ a < n := by
  simp only [intRange, List.mem_map, List.mem_range, Int.ofNat_eq_coe]
  constructor
  · rintro ⟨k, hk, rfl⟩
    omega
  · intro h
    exact ⟨a.toNat, by omega, by omega⟩

theorem mem_coordsColMajor (w h : Int) (c : Int × Int) :
    c ∈ coordsColMajor w h ↔ 0 ≤ c.1 ∧ c.1 < w ∧ 0 ≤ c.2 ∧ c.2 < h := by
  cases c with
  | mk x y =>
    simp only [coordsColMajor, List.mem_flatMap, List.mem_map, mem_intRange]
    constructor
    · rintro ⟨x', hx', y', hy', he⟩
      cases he
      exact ⟨hx'.1, hx'.2, hy'.1, hy'.2⟩
    · rintro ⟨h1, h2, h3, h4⟩
      exact ⟨x, ⟨h1, h2⟩, y, ⟨h3, h4⟩, rfl⟩

theorem neighbors_bounds (x y w h : Int) (n : Int × Int)
    (hn : n ∈ neighbors x y w h) :
    0 < n.1 ∧ n.1 < w ∧ 0 < n.2 ∧ n.2 < h := by
  unfold neighbors at hn
  obtain ⟨d, hd, rfl⟩ := List.mem_map.mp hn
  have hflt := (List.mem_filter.mp hd).2
  simp only [decide_eq_true_eq] at hflt
  exact ⟨hflt.1, hflt.2.2.1, hflt.2.1, hflt.2.2.2⟩

/-- Every pixel of the buffer has alpha 255 (the flood strategy's completed
output shape). -/
def allSolid (buf : Nat → Rgba) : Prop := ∀ i, (buf i).a = 255

/-- Every in-range pixel's stage is `Processed`. -/
def allProcessed (w h : Int) (st : Nat → BleedStage) : Prop :=
  ∀ c ∈ coordsColMajor w h, st (pixelIndex w c.1 c.2) = BleedStage.Processed

theorem stageInit_allProcessed (w h : Int) (buf : Nat → Rgba)
    (hA : allSolid buf) : allProcessed w h (stageInit w h buf) := by
  intro c hc
  unfold stageInit
  refine foldl_write_const_mem _ _ BleedStage.Processed (coordsColMajor w h)
    (fun _ => BleedStage.Unprocessed) c ?_ hc ?_
  · intro d _
    right
    simp [hA (pixelIndex w d.1 d.2)]
  · simp [hA (pixelIndex w c.1 c.2)]

theorem seedScan_noop (w h : Int) :
    ∀ (ns : List (Int × Int)) (st : Nat → BleedStage) (q : List (Int × Int)),
      (∀ n ∈ ns, st (pixelIndex w n.1 n.2) ≠ BleedStage.Unprocessed) →
      seedScan w h st q ns = (st, q) := by
  intro ns
  induction ns with
  | nil => intro st q _; rfl
  | cons n rest ih =>
    intro st q hns
    have hn := hns n (List.mem_cons_self _ _)
    have hrest : ∀ m ∈ rest, st (pixelIndex w m.1 m.2) ≠ BleedStage.Unprocessed :=
      fun m hm => hns m (List.mem_cons_of_mem _ hm)
    by_cases hb : n.1 < 0 ∨ n.1 ≥ w ∨ n.2 < 0 ∨ n.2 ≥ h
    · simpa [seedScan, hb] using ih st q hrest
    · simp only [seedScan, hb, if_false, hn, ite_false]
      exact ih st q hrest

theorem seedFrontier_noop (w h : Int) (st : Nat → BleedStage)
    (hP : ∀ c ∈ coordsColMajor w h, ∀ n ∈ neighbors c.1 c.2 w h,
      st (pixelIndex w n.1 n.2) ≠ BleedStage.Unprocessed) :
    seedFrontier w h st = (st, []) := by
  unfold seedFrontier
  refine foldl_inv _ (fun acc : (Nat → BleedStage) × List (Int × Int) =>
    acc = (st, [])) _ _ ?_ rfl
  intro acc c hc hacc
  subst hacc
  by_cases hp : st (pixelIndex w c.1 c.2) = BleedStage.Processed
  · simp only [if_pos hp]
    exact seedScan_noop w h _ st [] (hP c hc)
  · simp [hp]

theorem floodLoopAux_nil (w h : Int) (lookup : Nat → Rgba) (fuel : Nat)
    (value : Nat → Rgba) (st : Nat → BleedStage) :
    floodLoopAux w h lookup fuel value st [] = ⟨value, st, [], []⟩ := by
  cases fuel <;> simp [floodLoopAux]

theorem forceAlpha_solid_id (w h : Int) (buf : Nat → Rgba)
    (hA : allSolid buf) : forceAlpha w h buf = buf := by
  unfold forceAlpha
  refine foldl_inv _ (fun v : Nat → Rgba => v = buf) _ _ ?_ rfl
  intro v c _ hv
  rw [hv]
  show updf buf (pixelIndex w c.1 c.2)
    { buf (pixelIndex w c.1 c.2) with a := 255 } = buf
  have hpx : { buf (pixelIndex w c.1 c.2) with a := 255 } =
      buf (pixelIndex w c.1 c.2) := by
    have ha := hA (pixelIndex w c.1 c.2)
    cases hbuf : buf (pixelIndex w c.1 c.2) with
    | mk r g b a =>
      simp only at ha ⊢
      rw [hbuf] at ha
      simp only at ha
      simp [ha]
  rw [hpx, updf_self]

end Pixfix.Maina

namespace Pixfix.Batch

/-! ### Counter arithmetic -/

theorem count_true_false_total (L : List Bool) :
    L.count true + L.count false = L.length := by
  induction L with
  | nil => rfl
  | cons b t ih => cases b <;> simp [List.count_cons] <;> omega

theorem runTasks_spec :
    ∀ (L : List Bool) (a b : Nat),
      a + L.count true < 65536 → b + L.count false < 65536 →
      runTasks (a, b) L = (a + L.count true, b + L.count false) := by
  intro L
  induction L with
  | nil => intro a b _ _; simp [runTasks]
  | cons hd t ih =>
    intro a b ha hb
    cases hd with
    | true =>
      have hct : (true :: t).count true = t.count true + 1 := by
        simp [List.count_cons]
      have hcf : (true :: t).count false = t.count false := by
        simp [List.count_cons]
      rw [hct] at ha
      have hstep : runTasks (a, b) (true :: t) = runTasks (a + 1, b) t := by
        have : applyResult (a, b) true = (a + 1, b) := by
          simp [applyResult, fetchAdd]
          omega
        simp [runTasks, List.foldl_cons, this]
      rw [hstep, ih (a + 1) b (by omega) (by rwa [hcf] at hb)]
      rw [hct, hcf]
      simp only [Prod.mk.injEq]
      exact ⟨by omega, trivial⟩
    | false =>
      have hct : (false :: t).count true = t.count true := by
        simp [List.count_cons]
      have hcf : (false :: t).count false = t.count false + 1 := by
        simp [List.count_cons]
      rw [hcf] at hb
      have hstep : runTasks (a, b) (false :: t) = runTasks (a, b + 1) t := by
        have : applyResult (a, b) false = (a, b + 1) := by
          simp [applyResult, fetchAdd]
          omega
        simp [runTasks, List.foldl_cons, this]
      rw [hstep, ih a (b + 1) (by rwa [hct] at ha) (by omega)]
      rw [hct, hcf]
      simp only [Prod.mk.injEq]
      exact ⟨trivial, by omega⟩

end Pixfix.Batch

namespace Pixfix

/-! ## Concrete rasters and inputs used by the claim theorems -/

/-- 3×3 raster whose only transparent pixel is (0,0): every other pixel is a
border pixel for the main.rs classifier. -/
def c1buf : Nat → Rgba := fun i => if i = 0 then ⟨0, 0, 0, 0⟩ else ⟨50, 60, 70, 255⟩

def c1img : Main.Img := ⟨3, 3, c1buf⟩

/-- 1×1 raster whose single pixel has alpha 128: no transparent pixel, hence
zero border points. -/
def c2buf : Nat → Rgba := fun _ => ⟨10, 20, 30, 128⟩

def c2img : Main.Img := ⟨1, 1, c2buf⟩

/-- The 1×1 zero-border-point raster, presented to the flood pipeline as a
successfully read and decoded 8-bit RGBA PNG. -/
def c2file : Maina.PngFile :=
  ⟨true, true, Maina.ColorSpace.RGBA, 1, 1, Maina.DecodingResult.U8 c2buf⟩

/-- 5×3 raster: one red pixel at (1,1) (index 6), every other pixel fully
transparent with black RGB.  The flood reaches (2,1) (index 7) in round 1 and
(3,1) (index 8) in round 2. -/
def c4buf : Nat → Rgba :=
  fun i => if i = 6 then ⟨255, 0, 0, 255⟩ else ⟨0, 0, 0, 0⟩

/-- A file whose `fs::read` fails. -/
def c6file : Maina.PngFile :=
  ⟨false, true, Maina.ColorSpace.RGBA, 1, 1, Maina.DecodingResult.other⟩

/-- A successfully decoded 16-bit-per-channel RGBA PNG. -/
def c7file : Maina.PngFile :=
  ⟨true, true, Maina.ColorSpace.RGBA, 2, 2, Maina.DecodingResult.U16⟩

/-- 2×2 raster with a single red border pixel at (0,0), all others
transparent. -/
def w3buf : Nat → Rgba :=
  fun i => if i = 0 then ⟨255, 0, 0, 255⟩ else ⟨0, 0, 0, 0⟩

def w3img : Main.Img := ⟨2, 2, w3buf⟩

/-- A fully solid buffer: every pixel has alpha 255. -/
def c9buf : Nat → Rgba := fun _ => ⟨9, 8, 7, 255⟩

/-! ## Claim theorems -/

/-- C1: the claim says every pipeline examines exactly the in-bounds Moore
neighbors, in particular those in row 0 or column 0.  The border classifier of
main.rs does (third conjunct: pixel (1,1) of a 3×3 raster whose only
transparent pixel is at (0,0) is recognized as a border pixel), but the flood
pipeline's `neighbors` filter demands `x1 > 0 && y1 > 0`, so at pixel (1,1) of
a 3×3 raster it returns only the three neighbors off row 0 and column 0 and
never the in-bounds neighbor (0,0). -/
theorem neighbors_skip_row0_col0 :
    Maina.neighbors 1 1 3 3 = [(2, 1), (2, 2), (1, 2)] ∧
      ((0 : Int), (0 : Int)) ∉ Maina.neighbors 1 1 3 3 ∧
      Main.isBorder c1img 1 1 = true := by
  refine ⟨by decide, by decide, by decide⟩

/-- C2 counterexample: a 1×1 raster with alpha 128 has zero border points
(first conjunct, via the classifier), yet the flood pipeline reports success,
hands a buffer to the encoder, and that buffer's only pixel has its alpha byte
changed from 128 to 255 — not a failed no-op with unchanged bytes. -/
theorem flood_no_border_still_writes :
    (Main.classify c2img).2 = [] ∧
      Maina.fixAlphaBleed c2file =
        Except.ok ⟨true, none, some (Maina.floodU8 1 1 c2buf)⟩ ∧
      Maina.floodU8 1 1 c2buf 0 = ⟨10, 20, 30, 255⟩ ∧
      c2buf 0 ≠ ⟨10, 20, 30, 255⟩ := by
  refine ⟨by decide, rfl, by decide, by decide⟩

/-- C2 amended: only the nearest-border-point pipeline treats an empty border
set as a failed no-op — it returns `false` and hands nothing to the save call,
leaving the raster untouched.  (The flood pipeline performs no such check;
see the counterexample.) -/
theorem nearest_no_border_noop (img : Main.Img) (debug triOk saveOk : Bool)
    (hb : (Main.classify img).2 = []) :
    Main.convertImage (some img) debug triOk saveOk = (false, none) := by
  unfold Main.convertImage
  simp [hb]

theorem nearest_no_border_noop_witness :
    (Main.classify c2img).2 = [] ∧
      Main.convertImage (some c2img) false true true = (false, none) :=
  ⟨by decide, nearest_no_border_noop c2img false true true (by decide)⟩

/-- The property C3 asserts of one transparent pixel: some recorded border
entry at minimal squared Euclidean distance supplies the written pixel's RGB
verbatim, and the written alpha is 255 in debug mode and 0 otherwise. -/
def nearestFillSpec (img : Main.Img) (debug : Bool) (c : Nat × Nat) : Prop :=
  ∃ e ∈ (Main.classify img).2,
    (∀ e' ∈ (Main.classify img).2, Main.dist2 e.1 c ≤ Main.dist2 e'.1 c) ∧
      Main.fillTransparent img (Main.classify img).2 (Main.classify img).1 debug
          (Main.pidx img.width c) =
        ⟨e.2.1, e.2.2.1, e.2.2.2, if debug then 255 else 0⟩

/-- C3: in the nearest-border-point strategy, every transparent pixel of a
raster with a nonempty border set is filled with exactly the recorded RGB of a
border point at minimal Euclidean distance (never an interpolated value), and
its alpha is 255 iff the debug flag is set, else 0. -/
theorem nearest_fill_uses_nearest_border_rgb (img : Main.Img) (debug : Bool)
    (c : Nat × Nat) (hx : c.1 < img.width) (hy : c.2 < img.height)
    (ha : (img.buf (Main.pidx img.width c)).a = 0)
    (hb : (Main.classify img).2 ≠ []) :
    nearestFillSpec img debug c := by
  obtain ⟨e, ⟨hmem, hmin⟩, hfv⟩ :=
    Main.fillValue_spec (Main.classify img).2 debug c hb
  refine ⟨e, hmem, hmin, ?_⟩
  have hT : c ∈ (Main.classify img).1 :=
    (Main.mem_transparent img c).mpr ⟨hx, hy, ha⟩
  have hw := foldl_write_mem (Main.pidx img.width)
    (Main.fillValue (Main.classify img).2 debug) (Main.classify img).1 img.buf c
    (Main.transparent_keys_nodup img) hT
  unfold Main.fillTransparent
  rw [hw, hfv]
  rfl

theorem nearest_fill_uses_nearest_border_rgb_witness :
    (1 : Nat) < w3img.width ∧ (0 : Nat) < w3img.height ∧
      (w3img.buf (Main.pidx w3img.width (1, 0))).a = 0 ∧
      (Main.classify w3img).2 ≠ [] ∧ nearestFillSpec w3img false (1, 0) :=
  ⟨by decide, by decide, by decide, by decide,
    nearest_fill_uses_nearest_border_rgb w3img false (1, 0) (by decide)
      (by decide) (by decide) (by decide)⟩

/-- C4: the claim says a frontier pixel's RGB becomes the mean of the RGB of
its currently-Processed neighbors.  On the 5×3 raster `c4buf`, pixel (2,1)
(index 7) is promoted in round 1 with RGB (255,0,0) (first conjunct), and in
round 2 it is the unique Processed neighbor of pixel (3,1) (index 8); the mean
of its RGB is (255,0,0), yet (3,1) ends with RGB (0,0,0) (second conjunct),
because the source averages the pre-run `lookup` snapshot, in which (2,1)
still holds its original black garbage. -/
theorem flood_average_reads_stale_rgb :
    Maina.floodU8 5 3 c4buf 7 = ⟨255, 0, 0, 255⟩ ∧
      Maina.floodU8 5 3 c4buf 8 = ⟨0, 0, 0, 255⟩ := by
  refine ⟨by decide, by decide⟩

/-- C5 counterexample: with one resolved-but-ignored file pre-added to the
failed counter and N = 1 dispatched path that succeeds, the final counters sum
to 2, not N = 1. -/
theorem counters_sum_exceeds_dispatched :
    ¬ ((Batch.batchCounters 1 [true]).1 + (Batch.batchCounters 1 [true]).2 =
      ([true] : List Bool).length) := by decide

/-- C5 amended: each dispatched task contributes exactly one increment to
exactly one counter, in any interleaving (any permutation of the per-task
increments): `fixed` ends at the number of successes and `failed` at the
pre-added ignored-file count plus the number of failures, so the counters sum
to N plus the ignored-file count (and to exactly N when no resolved file was
ignored), provided the total stays below the u16 wrap bound 2^16. -/
theorem counters_sum_dispatched_plus_ignored (numIgnored : Nat)
    (results interleaved : List Bool) (hperm : interleaved.Perm results)
    (hsize : numIgnored + results.length < 65536) :
    (Batch.batchCounters numIgnored interleaved).1 = results.count true ∧
      (Batch.batchCounters numIgnored interleaved).2 =
        numIgnored + results.count false ∧
      (Batch.batchCounters numIgnored interleaved).1 +
          (Batch.batchCounters numIgnored interleaved).2 =
        numIgnored + results.length := by
  have hct := hperm.count_eq true
  have hcf := hperm.count_eq false
  have htotal := Batch.count_true_false_total results
  have hbound1 : interleaved.count true ≤ results.length := by
    rw [hct]
    exact List.count_le_length _ _
  have hbound2 : interleaved.count false ≤ results.length := by
    rw [hcf]
    exact List.count_le_length _ _
  have hin : Batch.fetchAdd 0 numIgnored = numIgnored := by
    unfold Batch.fetchAdd
    omega
  have hrun := Batch.runTasks_spec interleaved 0 numIgnored (by omega) (by omega)
  unfold Batch.batchCounters
  rw [hin, hrun]
  refine ⟨by rw [hct]; omega, by rw [hcf], ?_⟩
  simp only
  omega

theorem counters_sum_dispatched_plus_ignored_witness :
    ([false, true] : List Bool).Perm [true, false] ∧
      (0 : Nat) + ([true, false] : List Bool).length < 65536 ∧
      (Batch.batchCounters 0 [false, true]).1 +
          (Batch.batchCounters 0 [false, true]).2 =
        0 + ([true, false] : List Bool).length :=
  ⟨by decide, by decide,
    (counters_sum_dispatched_plus_ignored 0 [true, false] [false, true]
      (by decide) (by decide)).2.2⟩

/-- C6 counterexample: a file whose `fs::read` fails makes `fix_alpha_bleed`
panic out of the function (the `unwrap` of maina.rs:117) instead of being
caught and converted into a `(false, cause)` failure result. -/
theorem fix_alpha_bleed_read_failure_aborts :
    Maina.fixAlphaBleed c6file =
        Except.error "panicked: fs::read returned Err" ∧
      (Maina.fixAlphaBleed c6file).isOk = false :=
  ⟨rfl, rfl⟩

/-- C6 amended: error containment is only partial.  In the flood pipeline,
once the read and the decode have succeeded no panic escapes (every outcome is
a returned result), but read/decode failures panic out of the per-file call.
In the nearest pipeline, an open failure, an index-construction failure, and a
save failure are each caught and converted to a `false` result. -/
theorem errors_caught_only_after_decode :
    (∀ f : Maina.PngFile, f.readOk = true → f.decodeOk = true →
        (Maina.fixAlphaBleed f).isOk = true) ∧
      (∀ debug triOk saveOk : Bool,
        Main.convertImage none debug triOk saveOk = (false, none)) ∧
      (∀ (img : Main.Img) (debug saveOk : Bool),
        Main.convertImage (some img) debug false saveOk = (false, none)) ∧
      (∀ (img : Main.Img) (debug triOk : Bool),
        (Main.convertImage (some img) debug triOk false).1 = false) := by
  refine ⟨?_, ?_, ?_, ?_⟩
  · intro f hr hd
    unfold Maina.fixAlphaBleed
    rw [hr, hd]
    by_cases hcs : f.colorSpace ≠ Maina.ColorSpace.RGBA
    · simp [hcs, Except.isOk, Except.toBool]
    · cases hres : f.result <;> simp [hcs, hres, Except.isOk, Except.toBool]
  · intro debug triOk saveOk
    rfl
  · intro img debug saveOk
    unfold Main.convertImage
    by_cases hb : (Main.classify img).2.isEmpty <;> simp [hb]
  · intro img debug triOk
    unfold Main.convertImage
    by_cases hb : (Main.classify img).2.isEmpty
    · simp [hb]
    · by_cases ht : triOk <;> simp [hb, ht]

theorem errors_caught_only_after_decode_witness :
    (Maina.fixAlphaBleed ⟨true, true, Maina.ColorSpace.RGB, 1, 1,
        Maina.DecodingResult.other⟩).isOk = true ∧
      Main.convertImage none true true true = (false, none) ∧
      Main.convertImage (some c2img) true false true = (false, none) ∧
      (Main.convertImage (some c2img) true true false).1 = false :=
  ⟨errors_caught_only_after_decode.1 _ rfl rfl,
    errors_caught_only_after_decode.2.1 true true true,
    errors_caught_only_after_decode.2.2.1 c2img true true,
    errors_caught_only_after_decode.2.2.2 c2img true true⟩

/-- C7 counterexample: a successfully decoded 16-bit-per-channel RGBA raster
passes the colorspace check, hits only the `dbg!` stub, and the file is
reported a success `(true, None)` with no format error and no fill — not
rejected and counted as failed. -/
theorem u16_rgba_reported_success :
    Maina.fixAlphaBleed c7file = Except.ok ⟨true, none, none⟩ := rfl

/-- C7 amended: the only layout rejection the flood pipeline performs is on
the colorspace: a non-RGBA colorspace is rejected with the format-error cause
string before any fill (first conjunct), while a 16-bit RGBA raster sails
through the check and is reported successful with nothing filled or written
(second conjunct). -/
theorem colorspace_mismatch_only_rejection :
    (∀ f : Maina.PngFile, f.readOk = true → f.decodeOk = true →
        f.colorSpace ≠ Maina.ColorSpace.RGBA →
        Maina.fixAlphaBleed f =
          Except.ok ⟨false, some (Maina.csError f.colorSpace), none⟩) ∧
      (∀ f : Maina.PngFile, f.readOk = true → f.decodeOk = true →
        f.colorSpace = Maina.ColorSpace.RGBA →
        f.result = Maina.DecodingResult.U16 →
        Maina.fixAlphaBleed f = Except.ok ⟨true, none, none⟩) := by
  constructor
  · intro f hr hd hcs
    unfold Maina.fixAlphaBleed
    rw [hr, hd]
    simp [hcs]
  · intro f hr hd hcs hres
    unfold Maina.fixAlphaBleed
    rw [hr, hd, hres]
    simp [hcs]

theorem colorspace_mismatch_only_rejection_witness :
    Maina.fixAlphaBleed ⟨true, true, Maina.ColorSpace.Luma, 1, 1,
        Maina.DecodingResult.other⟩ =
      Except.ok ⟨false, some (Maina.csError Maina.ColorSpace.Luma), none⟩ ∧
      Maina.fixAlphaBleed c7file = Except.ok ⟨true, none, none⟩ :=
  ⟨colorspace_mismatch_only_rejection.1 _ rfl rfl (by decide),
    colorspace_mismatch_only_rejection.2 c7file rfl rfl rfl rfl⟩

/-- C8: in the flood pipeline, for any raster and any fuel, (1) no coordinate
is ever enqueued into a frontier twice — the initial seeded frontier together
with every round's freshly created frontier form one duplicate-free list — and
(2) stages only move forward: from the all-Unprocessed array through
initialisation, seeding, and every round's snapshot, each pixel's stage rank
never decreases. -/
theorem flood_stage_monotone_and_frontier_nodup (w h : Int) (buf : Nat → Rgba)
    (fuel : Nat) :
    ((Maina.seedFrontier w h (Maina.stageInit w h buf)).2 ::
        (Maina.floodLoopAux w h buf fuel buf
          (Maina.seedFrontier w h (Maina.stageInit w h buf)).1
          (Maina.seedFrontier w h (Maina.stageInit w h buf)).2).frontiers).flatten.Nodup ∧
      List.Chain' Maina.stageLE
        ((fun _ => Maina.BleedStage.Unprocessed) :: Maina.stageInit w h buf ::
          (Maina.seedFrontier w h (Maina.stageInit w h buf)).1 ::
          (Maina.floodLoopAux w h buf fuel buf
            (Maina.seedFrontier w h (Maina.stageInit w h buf)).1
            (Maina.seedFrontier w h (Maina.stageInit w h buf)).2).snaps) := by
  constructor
  · obtain ⟨hnd, hm⟩ := Maina.seedFrontier_inv w h (Maina.stageInit w h buf)
    have hloop := Maina.floodLoop_nodup w h buf fuel buf
      (Maina.seedFrontier w h (Maina.stageInit w h buf)).1
      (Maina.seedFrontier w h (Maina.stageInit w h buf)).2 []
      (by simpa using hnd) (by simpa using hm)
    simpa [List.flatten_cons] using hloop
  · refine List.chain'_cons.mpr ⟨?_, List.chain'_cons.mpr ⟨?_, ?_⟩⟩
    · intro i
      exact Nat.zero_le _
    · exact Maina.seedFrontier_mono w h (Maina.stageInit w h buf)
    · exact Maina.floodLoop_chain w h buf fuel buf _ _

/-- C9: re-running the flood strategy on a raster whose every pixel already
has alpha 255 is a byte-level no-op: every in-range pixel initialises to
Processed, the seeded frontier is empty, the propagation loop creates no
frontier at all, and the final buffer equals the input buffer. -/
theorem flood_idempotent_on_processed (w h : Int) (fuel : Nat)
    (buf : Nat → Rgba) (hA : Maina.allSolid buf) :
    Maina.allProcessed w h (Maina.stageInit w h buf) ∧
      (Maina.seedFrontier w h (Maina.stageInit w h buf)).2 = [] ∧
      (Maina.floodLoopAux w h buf fuel buf
          (Maina.seedFrontier w h (Maina.stageInit w h buf)).1
          (Maina.seedFrontier w h (Maina.stageInit w h buf)).2).frontiers = [] ∧
      Maina.floodU8 w h buf = buf := by
  have hinit := Maina.stageInit_allProcessed w h buf hA
  have hseed : Maina.seedFrontier w h (Maina.stageInit w h buf) =
      (Maina.stageInit w h buf, []) := by
    apply Maina.seedFrontier_noop
    intro c hc n hn
    have hbd := Maina.neighbors_bounds c.1 c.2 w h n hn
    have hmem : n ∈ Maina.coordsColMajor w h :=
      (Maina.mem_coordsColMajor w h n).mpr
        ⟨le_of_lt hbd.1, hbd.2.1, le_of_lt hbd.2.2.1, hbd.2.2.2⟩
    rw [hinit n hmem]
    simp
  have h1 : (Maina.seedFrontier w h (Maina.stageInit w h buf)).1 =
      Maina.stageInit w h buf := by rw [hseed]
  have h2 : (Maina.seedFrontier w h (Maina.stageInit w h buf)).2 = [] := by
    rw [hseed]
  refine ⟨hinit, h2, ?_, ?_⟩
  · rw [h1, h2, Maina.floodLoopAux_nil]
  · show Maina.forceAlpha w h
        (Maina.floodLoopAux w h buf (w.toNat * h.toNat + 1) buf
          (Maina.seedFrontier w h (Maina.stageInit w h buf)).1
          (Maina.seedFrontier w h (Maina.stageInit w h buf)).2).value = buf
    rw [h1, h2, Maina.floodLoopAux_nil]
    exact Maina.forceAlpha_solid_id w h buf hA

theorem flood_idempotent_on_processed_witness :
    Maina.allSolid c9buf ∧
      (Maina.allProcessed 2 2 (Maina.stageInit 2 2 c9buf) ∧
        (Maina.seedFrontier 2 2 (Maina.stageInit 2 2 c9buf)).2 = [] ∧
        (Maina.floodLoopAux 2 2 c9buf 5 c9buf
            (Maina.seedFrontier 2 2 (Maina.stageInit 2 2 c9buf)).1
            (Maina.seedFrontier 2 2 (Maina.stageInit 2 2 c9buf)).2).frontiers =
          [] ∧
        Maina.floodU8 2 2 c9buf = c9buf) :=
  ⟨fun _ => rfl, flood_idempotent_on_processed 2 2 5 c9buf (fun _ => rfl)⟩

/-- C10: the nearest-border-point fill writes only to collected transparent
pixels: every pixel whose input alpha is positive holds exactly its original
RGBA bytes in the filled raster, in debug and non-debug mode alike. -/
theorem nearest_preserves_nontransparent (img : Main.Img) (debug : Bool)
    (c : Nat × Nat) (hx : c.1 < img.width) (hy : c.2 < img.height)
    (ha : 0 < (img.buf (Main.pidx img.width c)).a) :
    Main.fillTransparent img (Main.classify img).2 (Main.classify img).1 debug
        (Main.pidx img.width c) = img.buf (Main.pidx img.width c) := by
  unfold Main.fillTransparent
  apply foldl_write_notmem
  intro t ht he
  have hmem := (Main.mem_transparent img t).mp ht
  have hte : t = c := Main.pidx_inj img.width t c hmem.1 hx he
  cases hte
  exact absurd hmem.2.2 (Nat.pos_iff_ne_zero.mp ha)

theorem nearest_preserves_nontransparent_witness :
    (0 : Nat) < w3img.width ∧ (0 : Nat) < w3img.height ∧
      0 < (w3img.buf (Main.pidx w3img.width (0, 0))).a ∧
      Main.fillTransparent w3img (Main.classify w3img).2 (Main.classify w3img).1
          true (Main.pidx w3img.width (0, 0)) =
        w3img.buf (Main.pidx w3img.width (0, 0)) :=
  ⟨by decide, by decide, by decide,
    nearest_preserves_nontransparent w3img true (0, 0) (by decide) (by decide)
      (by decide)⟩

end Pixfix
